import Mathlib

/-!
Verification of the S-language interpreter (`s_programming_language.py`).

The machine (`SMachine`) executes a counter-machine language with three
primitives (`inc`, `dec`, `jnz`), parameterized recursive macros expanded
into call-stack frames with suffix-based namespace isolation, and a
snapshot history with rewind.

Python dicts are modelled as insertion-ordered association lists with
unique keys (`Dict`); Python ints as `Int` (the non-negativity of the
variable store is an invariant to be proved, not baked into the type);
Python exceptions as `Except` values whose error component carries the
machine state observable at raise time, translated statement-by-statement
from the source so that partial mutation before a raise would be visible.
The call stack is a list with the top frame at the head (Python keeps the
top at the end; indices are mirrored accordingly).
-/

namespace SLang

/-- An instruction tuple `(op, *args)`: a primitive, a label marker
(`op` ending in `":"`), or a macro call. -/
structure Instr where
  op : String
  args : List String
deriving DecidableEq, Repr, Inhabited

/-- A Python dict with string keys: insertion-ordered, unique keys. -/
abbrev Dict (α : Type) := List (String × α)

/-- Dict lookup (`d[k]` / `k in d`). -/
def dget? {α : Type} : Dict α → String → Option α
  | [], _ => none
  | p :: t, k => if p.1 = k then some p.2 else dget? t k

/-- Dict membership (`k in d`). -/
def dmem {α : Type} (d : Dict α) (k : String) : Bool :=
  (dget? d k).isSome

/-- Dict insert/update (`d[k] = v`): an existing key keeps its position,
a new key is appended. -/
def dset {α : Type} : Dict α → String → α → Dict α
  | [], k, v => [(k, v)]
  | p :: t, k, v => if p.1 = k then (k, v) :: t else p :: dset t k v

/-- `d.get(k, 0)` on the variable store. -/
def vget (vars : Dict Int) (v : String) : Int :=
  (dget? vars v).getD 0

/-- `mapping.get(a, a)`: resolve a name through a frame's alias map,
defaulting to the name itself. -/
def aget (mapping : Dict String) (a : String) : String :=
  (dget? mapping a).getD a

/-- A macro definition `(params, code, locals)` as stored in
`SMachine.macros`. -/
structure MacroDef where
  params : List String
  code : List Instr
  locals : List String
deriving DecidableEq, Repr, Inhabited

/-- One call activation: flat code, program counter, label map, alias map
(`SMachine._make_frame`). -/
structure Frame where
  code : List Instr
  pc : Nat
  labels : Dict Nat
  map : Dict String
deriving DecidableEq, Repr, Inhabited

/-- One history entry (`SMachine._save_snapshot`). -/
structure Snapshot where
  step : Nat
  vars : Dict Int
  stack : List Frame
  stack_depth : Nat
  next_instr : Option Instr
deriving DecidableEq, Repr, Inhabited

/-- The machine state (`SMachine.__init__`). The top of `stack` is at the
head of the list. -/
structure SMachine where
  macros : Dict MacroDef
  inputs : Dict Int
  program_src : List Instr
  program_flat : List Instr
  program_labels : Dict Nat
  vars : Dict Int
  stack : List Frame
  call_ids : Nat
  step_count : Nat
  history : List Snapshot
deriving DecidableEq, Repr, Inhabited

/-- The exceptions the interpreter raises, per the spec's taxonomy. -/
inductive SErr where
  | invalidInput (name : String)
  | invalidMacroName
  | duplicateMacro (name : String)
  | arityMismatch (name : String) (expected got : Nat)
  | unknownInstruction (op : String)
  | labelNotFound (target : String)
  | stepLimitExceeded
  | rewindIndexOutOfRange (idx : Int)
  | indexError
deriving DecidableEq, Repr

/-- Python `s.endswith(t)` over code points (structural, unlike
`String.endsWith`, so that concrete runs reduce in the kernel). -/
def pyEndsWith (s t : String) : Bool :=
  List.isSuffixOf t.data s.data

/-- Python `s.startswith(t)` over code points. -/
def pyStartsWith (s t : String) : Bool :=
  List.isPrefixOf t.data s.data

/-- Python `s[:-1]`. -/
def pyDropLast (s : String) : String :=
  ⟨s.data.dropLast⟩

/-- `SMachine._resolve_labels`: strip label markers from a block, recording
`name + suffix ↦ index of the next real instruction`. -/
def resolveLabels (code : List Instr) (suffix : String) : List Instr × Dict Nat :=
  code.foldl
    (fun acc instr =>
      if pyEndsWith instr.op ":" then
        (acc.1, dset acc.2 (pyDropLast instr.op ++ suffix) acc.1.length)
      else
        (acc.1 ++ [instr], acc.2))
    ([], [])

/-- `SMachine._make_frame`. -/
def makeFrame (code : List Instr) (labels : Dict Nat) (mapping : Dict String) : Frame :=
  { code := code, pc := 0, labels := labels, map := mapping }

/-- `SMachine._find_label_in_frame`: exact match first, then the first
stored key (in insertion order) beginning with `label ++ "__"`. -/
def findLabelInFrame (label : String) (f : Frame) : Option Nat :=
  match dget? f.labels label with
  | some idx => some idx
  | none => (f.labels.find? (fun p => pyStartsWith p.1 (label ++ "__"))).map (fun p => p.2)

/-- The outward part of `SMachine._jump`: the loop over enclosing frames,
next-to-top first.  On a match all frames above the matching one are gone
from the result (they are the frames before `f` in the list). -/
def jumpOuter (target : String) : List Frame → Option (List Frame)
  | [] => none
  | f :: rest =>
    match findLabelInFrame target f with
    | some idx => some ({ f with pc := idx } :: rest)
    | none => jumpOuter target rest

/-- `SMachine._jump`: try the active frame, then search outward; `none`
means `LabelNotFound`. -/
def jump (target : String) (stack : List Frame) : Option (List Frame) :=
  match stack with
  | [] => none
  | top :: rest =>
    match findLabelInFrame target top with
    | some idx => some ({ top with pc := idx } :: rest)
    | none => jumpOuter target rest

/-- `SMachine._peek_next_instr`. -/
def peekNextInstr (stack : List Frame) : Option Instr :=
  match stack with
  | [] => none
  | f :: _ => if f.pc ≥ f.code.length then none else some (f.code.getD f.pc default)

/-- The snapshot `SMachine._save_snapshot` records (the deep copies of the
source become plain values here). -/
def mkSnapshot (m : SMachine) : Snapshot :=
  { step := m.step_count
    vars := m.vars
    stack := m.stack
    stack_depth := m.stack.length
    next_instr := peekNextInstr m.stack }

/-- `SMachine._save_snapshot`: append the current state to history. -/
def saveSnapshot (m : SMachine) : SMachine :=
  { m with history := m.history ++ [mkSnapshot m] }

/-- The bookkeeping shared by every instruction-executing branch of
`SMachine.step`: `self.step_count += 1; self._save_snapshot(...)`, then
`return True`. -/
def finishStep (m : SMachine) : Except (SErr × SMachine) (SMachine × Bool) :=
  .ok (saveSnapshot { m with step_count := m.step_count + 1 }, true)

/-- `SMachine.step`.  The `Bool` is the return value; an error carries the
machine state at raise time, following the source's statement order (every
raise in the source precedes any mutation of that step). -/
def step (m : SMachine) : Except (SErr × SMachine) (SMachine × Bool) :=
  match m.stack with
  | [] => .ok (m, false)
  | frame :: rest =>
    if frame.pc ≥ frame.code.length then
      .ok (saveSnapshot { m with stack := rest }, !rest.isEmpty)
    else
      let instr := frame.code.getD frame.pc default
      if instr.op = "inc" then
        match instr.args with
        | a0 :: _ =>
          let v := aget frame.map a0
          finishStep { m with
            vars := dset m.vars v (vget m.vars v + 1)
            stack := { frame with pc := frame.pc + 1 } :: rest }
        | [] => .error (.indexError, m)
      else if instr.op = "dec" then
        match instr.args with
        | a0 :: _ =>
          let v := aget frame.map a0
          finishStep { m with
            vars := dset m.vars v (max 0 (vget m.vars v - 1))
            stack := { frame with pc := frame.pc + 1 } :: rest }
        | [] => .error (.indexError, m)
      else if instr.op = "jnz" then
        match instr.args with
        | a0 :: a1 :: _ =>
          let v := aget frame.map a0
          let target := aget frame.map a1
          if vget m.vars v ≠ 0 then
            match jump target m.stack with
            | some st => finishStep { m with stack := st }
            | none => .error (.labelNotFound target, m)
          else
            finishStep { m with stack := { frame with pc := frame.pc + 1 } :: rest }
        | _ => .error (.indexError, m)
      else
        match dget? m.macros instr.op with
        | some md =>
          if instr.args.length ≠ md.params.length then
            .error (.arityMismatch instr.op md.params.length instr.args.length, m)
          else
            let suffix := "__m" ++ Nat.repr m.call_ids
            let newMap := (md.params.zip instr.args).foldl
              (fun d pa => dset d pa.1 (aget frame.map pa.2)) []
            let newMap := md.locals.foldl (fun d loc => dset d loc (loc ++ suffix)) newMap
            let fb := resolveLabels md.code suffix
            finishStep { m with
              call_ids := m.call_ids + 1
              stack := makeFrame fb.1 fb.2 newMap :: { frame with pc := frame.pc + 1 } :: rest }
        | none => .error (.unknownInstruction instr.op, m)

/-- `SMachine.reset` (its first statement is `_validate_inputs`, before any
mutation; the `isinstance(v, int)` half of that check is carried by the
`Int` type of the store). -/
def reset (m : SMachine) : Except (SErr × SMachine) SMachine :=
  match m.inputs.find? (fun p => decide (p.2 < 0)) with
  | some p => .error (.invalidInput p.1, m)
  | none =>
    let vars0 := m.inputs
    let vars1 := if dmem vars0 "y" then vars0 else vars0 ++ [("y", 0)]
    let fl := resolveLabels m.program_src ""
    .ok (saveSnapshot { m with
      vars := vars1
      program_flat := fl.1
      program_labels := fl.2
      stack := [makeFrame fl.1 fl.2 []]
      step_count := 0
      history := [] })

/-- A successful outward label search returns a non-empty stack. -/
theorem jumpOuter_some_ne_nil (target : String) :
    ∀ (l : List Frame) (st : List Frame), jumpOuter target l = some st → st ≠ [] := by
  intro l
  induction l with
  | nil => intro st h; rw [jumpOuter] at h; cases h
  | cons f t ih =>
    intro st h
    rw [jumpOuter] at h
    rcases hf : findLabelInFrame target f with _ | idx
    · rw [hf] at h; exact ih st h
    · rw [hf] at h; cases h; simp

/-- A successful jump returns a non-empty stack. -/
theorem jump_some_ne_nil (target : String) (l st : List Frame)
    (h : jump target l = some st) : st ≠ [] := by
  match l with
  | [] => rw [jump] at h; cases h
  | top :: rest =>
    rw [jump] at h
    rcases hf : findLabelInFrame target top with _ | idx
    · rw [hf] at h; exact jumpOuter_some_ne_nil target rest st h
    · rw [hf] at h; cases h; simp

/-- Every successful step either pops a finished frame (step counter
unchanged, stack strictly shorter) or executes an instruction (step counter
incremented, stack left non-empty). -/
theorem step_progress (m m' : SMachine) (b : Bool) (hne : m.stack ≠ [])
    (h : step m = .ok (m', b)) :
    (m'.step_count = m.step_count ∧ m'.stack.length < m.stack.length) ∨
      (m'.step_count = m.step_count + 1 ∧ m'.stack ≠ []) := by
  match hs : m.stack with
  | [] => exact absurd hs hne
  | frame :: rest =>
    rw [step, hs] at h
    simp only at h
    by_cases hpc : frame.pc ≥ frame.code.length
    · rw [if_pos hpc] at h
      cases h
      left
      simp [saveSnapshot, hs]
    · rw [if_neg hpc] at h
      set instr := frame.code.getD frame.pc default with hinstr
      by_cases h1 : instr.op = "inc"
      · rw [if_pos h1] at h
        match ha : instr.args with
        | a0 :: _ =>
          rw [ha] at h
          cases h
          right
          simp [saveSnapshot]
        | [] => rw [ha] at h; cases h
      · rw [if_neg h1] at h
        by_cases h2 : instr.op = "dec"
        · rw [if_pos h2] at h
          match ha : instr.args with
          | a0 :: _ =>
            rw [ha] at h
            cases h
            right
            simp [saveSnapshot]
          | [] => rw [ha] at h; cases h
        · rw [if_neg h2] at h
          by_cases h3 : instr.op = "jnz"
          · rw [if_pos h3] at h
            match ha : instr.args with
            | a0 :: a1 :: _ =>
              rw [ha] at h
              simp only at h
              by_cases hv : vget m.vars (aget frame.map a0) ≠ 0
              · rw [if_pos hv] at h
                match hj : jump (aget frame.map a1) (frame :: rest) with
                | some st =>
                  rw [hj] at h
                  cases h
                  right
                  constructor
                  · simp [saveSnapshot]
                  · have hst : st ≠ [] := jump_some_ne_nil _ _ _ hj
                    simpa [saveSnapshot] using hst
                | none => rw [hj] at h; cases h
              · rw [if_neg hv] at h
                cases h
                right
                simp [saveSnapshot]
            | [] => rw [ha] at h; cases h
            | [a0] => rw [ha] at h; cases h
          · rw [if_neg h3] at h
            match hm : dget? m.macros instr.op with
            | some md =>
              rw [hm] at h
              simp only at h
              by_cases hlen : instr.args.length ≠ md.params.length
              · rw [if_pos hlen] at h; cases h
              · rw [if_neg hlen] at h
                cases h
                right
                simp [saveSnapshot]
            | none => rw [hm] at h; cases h

/-- The run loop of `SMachine.run`. -/
def runLoop (maxSteps : Nat) (m : SMachine) : Except (SErr × SMachine) SMachine :=
  if hc : m.stack ≠ [] ∧ m.step_count < maxSteps then
    match hstep : step m with
    | .error e => .error e
    | .ok (m', _) => runLoop maxSteps m'
  else
    .ok m
termination_by (maxSteps - m.step_count, m.stack.length)
decreasing_by
  rcases step_progress m m' _ hc.1 hstep with ⟨heq, hlt⟩ | ⟨hsucc, _⟩
  · rw [heq]
    exact Prod.Lex.right _ hlt
  · apply Prod.Lex.left
    have h2 := hc.2
    omega

/-- The `if not self.stack: self.reset()` entry of `SMachine.run`. -/
def runEntry (m : SMachine) : Except (SErr × SMachine) SMachine :=
  if m.stack.isEmpty then reset m else .ok m

/-- `SMachine.run`: entry, the step loop, the budget check, and the return
of `self.vars.get("y", 0)`. -/
def run (m : SMachine) (maxSteps : Nat) : Except (SErr × SMachine) (SMachine × Int) :=
  match runEntry m with
  | .error e => .error e
  | .ok m0 =>
    match runLoop maxSteps m0 with
    | .error e => .error e
    | .ok m1 =>
      if m1.step_count ≥ maxSteps then .error (.stepLimitExceeded, m1)
      else .ok (m1, vget m1.vars "y")

/-- `SMachine.rewind`: Python list indexing, so a negative index counts
from the end of history; an index out of range (after that normalization)
raises. -/
def rewind (m : SMachine) (idx : Int) : Except (SErr × SMachine) SMachine :=
  let n : Int := m.history.length
  let j : Int := if idx < 0 then idx + n else idx
  if 0 ≤ j ∧ j < n then
    let snap := m.history.getD j.toNat default
    .ok { m with vars := snap.vars, stack := snap.stack, step_count := snap.step }
  else
    .error (.rewindIndexOutOfRange idx, m)

/-- `SMachine.add_macro`.  The `isinstance` checks on `params`, `code` and
`locals` are carried by the argument types (each `Instr` is a non-empty
tuple by construction). -/
def addMacro (m : SMachine) (name : String) (params : List String)
    (code : List Instr) (locals : List String) (overwrite : Bool) :
    Except (SErr × SMachine) SMachine :=
  if name = "" then
    .error (.invalidMacroName, m)
  else if ¬overwrite ∧ dmem m.macros name then
    .error (.duplicateMacro name, m)
  else
    .ok { m with macros := dset m.macros name ⟨params, code, locals⟩ }

/-- Iterated `step` (the manual stepping loop a caller would run). -/
def stepN : Nat → SMachine → Except (SErr × SMachine) SMachine
  | 0, m => .ok m
  | n + 1, m =>
    match step m with
    | .error e => .error e
    | .ok (m', _) => stepN n m'

/-- The machine is positioned on a macro-call instruction whose arity check
will pass: the top frame's current instruction names a registered macro (and
none of the three primitives, which shadow macros in the dispatch), with as
many arguments as the macro has parameters. -/
def aboutToCall (m : SMachine) (name : String) : Bool :=
  match m.stack with
  | [] => false
  | f :: _ =>
    decide (f.pc < f.code.length) &&
    ((f.code.getD f.pc default).op == name) &&
    !(name == "inc") && !(name == "dec") && !(name == "jnz") &&
    (match dget? m.macros name with
     | none => false
     | some md => (f.code.getD f.pc default).args.length == md.params.length)

/-- The call-unique suffix fabricated for activation number `id`
(Python's `f"__m{call_id}"`). -/
def callSuffix (id : Nat) : String :=
  "__m" ++ Nat.repr id

/-- The real variable name an activation with suffix id `id` assigns to a
declared local `loc`. -/
def localRealName (loc : String) (id : Nat) : String :=
  loc ++ callSuffix id

/-- Every value in a variable store is non-negative. -/
def VarsNonneg (d : Dict Int) : Prop :=
  ∀ p ∈ d, 0 ≤ p.2

/-! ### Concrete machines for witnesses and counterexamples -/

/-- A macro with one local and no parameters, called twice in a row by the
main program: the smallest setting with two sibling activations. -/
def isoMacro : MacroDef := ⟨[], [⟨"inc", ["z"]⟩], ["z"]⟩

/-- A machine (in its post-`reset` shape) whose program calls `g` twice. -/
def mIso : SMachine :=
  { macros := [("g", isoMacro)], inputs := [],
    program_src := [⟨"g", []⟩, ⟨"g", []⟩],
    program_flat := [⟨"g", []⟩, ⟨"g", []⟩], program_labels := [],
    vars := [], stack := [⟨[⟨"g", []⟩, ⟨"g", []⟩], 0, [], []⟩],
    call_ids := 0, step_count := 0, history := [] }

/-- `mIso` after three steps (first call, its body, its return): positioned
on the second call to `g`. -/
def mIso2 : SMachine := ((stepN 3 mIso).toOption).getD default

/-- A machine about to call a one-parameter macro with no arguments. -/
def mBadArity : SMachine :=
  { macros := [("f", ⟨["a"], [⟨"inc", ["a"]⟩], []⟩)], inputs := [],
    program_src := [⟨"f", []⟩],
    program_flat := [⟨"f", []⟩], program_labels := [],
    vars := [("x", 3)], stack := [⟨[⟨"f", []⟩], 0, [], []⟩],
    call_ids := 0, step_count := 0, history := [] }

/-- The active frame of `mJnz`: its current instruction is a `jnz`. -/
def jnzFrame : Frame := ⟨[⟨"jnz", ["x", "A"]⟩], 0, [("A", 0)], []⟩

/-- A machine whose current instruction is a `jnz` on variable `x` with
value 0 and a resolvable label. -/
def mJnz : SMachine :=
  { macros := [], inputs := [],
    program_src := [⟨"A:", []⟩, ⟨"jnz", ["x", "A"]⟩],
    program_flat := [⟨"jnz", ["x", "A"]⟩], program_labels := [("A", 0)],
    vars := [("x", 0)], stack := [jnzFrame],
    call_ids := 0, step_count := 0, history := [] }

/-- The exhausted top frame of `mPop` (program counter past the end). -/
def popFrame : Frame := ⟨[⟨"inc", ["x"]⟩], 1, [], []⟩

/-- The frames under `popFrame` in `mPop`. -/
def popRest : List Frame := [⟨[⟨"inc", ["y"]⟩], 0, [], []⟩]

/-- A machine whose top frame has run past its last instruction: the next
step is a frame pop. -/
def mPop : SMachine :=
  { macros := [], inputs := [],
    program_src := [⟨"inc", ["x"]⟩],
    program_flat := [⟨"inc", ["x"]⟩], program_labels := [],
    vars := [("x", 1)],
    stack := popFrame :: popRest,
    call_ids := 0, step_count := 4, history := [] }

/-- A fresh machine with an empty program: `reset` gives it history of
length one. -/
def mEmptyProg : SMachine :=
  { macros := [], inputs := [], program_src := [],
    program_flat := [], program_labels := [], vars := [], stack := [],
    call_ids := 0, step_count := 0, history := [] }

/-- `mEmptyProg` after `reset`: one snapshot in history. -/
def mReset : SMachine := ((reset mEmptyProg).toOption).getD default

/-! ### Dictionary lemmas -/

theorem dget?_dset_self {α : Type} (d : Dict α) (k : String) (v : α) :
    dget? (dset d k v) k = some v := by
  induction d with
  | nil => simp [dset, dget?]
  | cons p t ih =>
    rw [dset]
    by_cases hp : p.1 = k
    · rw [if_pos hp, dget?, if_pos rfl]
    · rw [if_neg hp, dget?, if_neg hp]
      exact ih

theorem dget?_dset_ne {α : Type} (d : Dict α) (k k' : String) (v : α)
    (h : k ≠ k') : dget? (dset d k v) k' = dget? d k' := by
  induction d with
  | nil => simp [dset, dget?, h]
  | cons p t ih =>
    rw [dset]
    by_cases hp : p.1 = k
    · rw [if_pos hp, dget?, if_neg h, dget?, if_neg (hp ▸ h)]
    · rw [if_neg hp, dget?, dget?]
      by_cases hp' : p.1 = k'
      · rw [if_pos hp', if_pos hp']
      · rw [if_neg hp', if_neg hp']
        exact ih

/-- What the locals-suffixing fold of the macro-call branch assigns: every
name in `locs` maps to itself plus the suffix; other names keep their prior
binding. -/
theorem foldl_dset_locals (suffix : String) (locs : List String) :
    ∀ (base : Dict String) (loc : String),
      dget? (locs.foldl (fun d l => dset d l (l ++ suffix)) base) loc =
        if loc ∈ locs then some (loc ++ suffix) else dget? base loc := by
  induction locs with
  | nil => intro base loc; simp
  | cons l ls ih =>
    intro base loc
    rw [List.foldl_cons, ih]
    by_cases hmem : loc ∈ ls
    · rw [if_pos hmem, if_pos (List.mem_cons_of_mem l hmem)]
    · rw [if_neg hmem]
      by_cases heq : l = loc
      · subst heq
        rw [dget?_dset_self, if_pos (List.mem_cons_self l ls)]
      · rw [dget?_dset_ne _ _ _ _ heq]
        have : loc ∉ l :: ls := by
          intro hc
          rcases List.mem_cons.mp hc with h | h
          · exact heq h.symm
          · exact hmem h
        rw [if_neg this]

/-! ### Injectivity of the decimal suffix

`Nat.repr` (used by Python's f-string to print the activation counter) is
injective: decoding the digit string recovers the number. -/

/-- The value of a decimal digit character. -/
def digitVal (c : Char) : Nat := c.toNat - 48

/-- Decode a digit string, most significant digit first. -/
def decodeDigits (l : List Char) : Nat :=
  l.foldl (fun a c => a * 10 + digitVal c) 0

theorem digitVal_digitChar (d : Nat) (h : d < 10) :
    digitVal (Nat.digitChar d) = d := by
  interval_cases d <;> rfl

/-- The number of decimal digits of `n`. -/
def digLen (n : Nat) : Nat :=
  if n < 10 then 1 else digLen (n / 10) + 1
termination_by n
decreasing_by exact Nat.div_lt_self (by omega) (by omega)

theorem toDigitsCore_decode :
    ∀ (fuel n : Nat) (ds : List Char) (a : Nat), n < fuel →
      (Nat.toDigitsCore 10 fuel n ds).foldl (fun x c => x * 10 + digitVal c) a =
        ds.foldl (fun x c => x * 10 + digitVal c) (a * 10 ^ digLen n + n) := by
  intro fuel
  induction fuel with
  | zero => intro n ds a h; omega
  | succ fuel ih =>
    intro n ds a h
    rw [Nat.toDigitsCore]
    by_cases hz : n / 10 = 0
    · have hn : n < 10 := by omega
      rw [if_pos hz, List.foldl_cons, digitVal_digitChar _ (Nat.mod_lt n (by omega)),
        Nat.mod_eq_of_lt hn, digLen, if_pos hn]
      ring_nf
    · have hn : 10 ≤ n := by
        by_contra hc
        exact hz (Nat.div_eq_of_lt (by omega))
      have hfuel : n / 10 < fuel := by
        have h1 : n / 10 < n := Nat.div_lt_self (by omega) (by omega)
        omega
      rw [if_neg hz, ih (n / 10) _ a hfuel, List.foldl_cons,
        digitVal_digitChar _ (Nat.mod_lt n (by omega))]
      have hd : digLen n = digLen (n / 10) + 1 := by
        rw [digLen, if_neg (by omega)]
      rw [hd, pow_succ]
      have hmod := Nat.div_add_mod n 10
      congr 1
      ring_nf
      omega

theorem decodeDigits_toDigits (n : Nat) :
    decodeDigits (Nat.toDigits 10 n) = n := by
  rw [Nat.toDigits, decodeDigits, toDigitsCore_decode (n + 1) n [] 0 (Nat.lt_succ_self n)]
  simp

theorem Nat_repr_inj (a b : Nat) (h : Nat.repr a = Nat.repr b) : a = b := by
  have ha : decodeDigits (Nat.toDigits 10 a) = decodeDigits (Nat.toDigits 10 b) := by
    have : (Nat.toDigits 10 a).asString = (Nat.toDigits 10 b).asString := h
    have hdata : (Nat.toDigits 10 a) = (Nat.toDigits 10 b) := by
      have := congrArg String.data this
      simpa [List.asString] using this
    rw [hdata]
  rw [decodeDigits_toDigits, decodeDigits_toDigits] at ha
  exact ha

theorem callSuffix_inj (a b : Nat) (h : callSuffix a = callSuffix b) : a = b := by
  apply Nat_repr_inj
  have := congrArg String.data h
  simp only [callSuffix] at this
  have h2 : ("__m".data ++ (Nat.repr a).data) = ("__m".data ++ (Nat.repr b).data) := by
    simpa [String.data_append] using this
  have h3 := List.append_cancel_left h2
  cases ra : Nat.repr a
  cases rb : Nat.repr b
  simp_all

theorem localRealName_inj (loc : String) (a b : Nat)
    (h : localRealName loc a = localRealName loc b) : a = b := by
  apply callSuffix_inj
  have := congrArg String.data h
  simp only [localRealName, String.data_append] at this
  have h2 := List.append_cancel_left this
  cases ca : callSuffix a
  cases cb : callSuffix b
  simp_all

/-! ### Characterizing the branches of `step` -/

/-- Every raise in `step` happens before any mutation: the machine state an
error carries is the pre-step state. -/
theorem step_error_eq (m m' : SMachine) (e : SErr)
    (h : step m = .error (e, m')) : m' = m := by
  match hs : m.stack with
  | [] => rw [step, hs] at h; cases h
  | frame :: rest =>
    rw [step, hs] at h
    simp only at h
    by_cases hpc : frame.pc ≥ frame.code.length
    · rw [if_pos hpc] at h; cases h
    · rw [if_neg hpc] at h
      set instr := frame.code.getD frame.pc default with hinstr
      by_cases h1 : instr.op = "inc"
      · rw [if_pos h1] at h
        match ha : instr.args with
        | _ :: _ => rw [ha] at h; cases h
        | [] => rw [ha] at h; cases h; rfl
      · rw [if_neg h1] at h
        by_cases h2 : instr.op = "dec"
        · rw [if_pos h2] at h
          match ha : instr.args with
          | _ :: _ => rw [ha] at h; cases h
          | [] => rw [ha] at h; cases h; rfl
        · rw [if_neg h2] at h
          by_cases h3 : instr.op = "jnz"
          · rw [if_pos h3] at h
            match ha : instr.args with
            | a0 :: a1 :: _ =>
              rw [ha] at h
              simp only at h
              by_cases hv : vget m.vars (aget frame.map a0) ≠ 0
              · rw [if_pos hv] at h
                match hj : jump (aget frame.map a1) (frame :: rest) with
                | some st => rw [hj] at h; cases h
                | none => rw [hj] at h; cases h; rfl
              · rw [if_neg hv] at h; cases h
            | [] => rw [ha] at h; cases h; rfl
            | [a0] => rw [ha] at h; cases h; rfl
          · rw [if_neg h3] at h
            match hm : dget? m.macros instr.op with
            | some md =>
              rw [hm] at h
              simp only at h
              by_cases hlen : instr.args.length ≠ md.params.length
              · rw [if_pos hlen] at h; cases h; rfl
              · rw [if_neg hlen] at h; cases h
            | none => rw [hm] at h; cases h; rfl

/-- `step` never decreases the activation counter. -/
theorem step_callIds_mono (m m' : SMachine) (b : Bool)
    (h : step m = .ok (m', b)) : m.call_ids ≤ m'.call_ids := by
  match hs : m.stack with
  | [] => rw [step, hs] at h; cases h; exact le_refl _
  | frame :: rest =>
    rw [step, hs] at h
    simp only at h
    by_cases hpc : frame.pc ≥ frame.code.length
    · rw [if_pos hpc] at h; cases h; simp [saveSnapshot]
    · rw [if_neg hpc] at h
      set instr := frame.code.getD frame.pc default with hinstr
      by_cases h1 : instr.op = "inc"
      · rw [if_pos h1] at h
        match ha : instr.args with
        | _ :: _ => rw [ha] at h; cases h; simp [saveSnapshot]
        | [] => rw [ha] at h; cases h
      · rw [if_neg h1] at h
        by_cases h2 : instr.op = "dec"
        · rw [if_pos h2] at h
          match ha : instr.args with
          | _ :: _ => rw [ha] at h; cases h; simp [saveSnapshot]
          | [] => rw [ha] at h; cases h
        · rw [if_neg h2] at h
          by_cases h3 : instr.op = "jnz"
          · rw [if_pos h3] at h
            match ha : instr.args with
            | a0 :: a1 :: _ =>
              rw [ha] at h
              simp only at h
              by_cases hv : vget m.vars (aget frame.map a0) ≠ 0
              · rw [if_pos hv] at h
                match hj : jump (aget frame.map a1) (frame :: rest) with
                | some st => rw [hj] at h; cases h; simp [saveSnapshot]
                | none => rw [hj] at h; cases h
              · rw [if_neg hv] at h; cases h; simp [saveSnapshot]
            | [] => rw [ha] at h; cases h
            | [a0] => rw [ha] at h; cases h
          · rw [if_neg h3] at h
            match hm : dget? m.macros instr.op with
            | some md =>
              rw [hm] at h
              simp only at h
              by_cases hlen : instr.args.length ≠ md.params.length
              · rw [if_pos hlen] at h; cases h
              · rw [if_neg hlen] at h; cases h; simp [saveSnapshot]
            | none => rw [hm] at h; cases h

/-- Iterated stepping never decreases the activation counter. -/
theorem stepN_callIds_mono :
    ∀ (n : Nat) (m m' : SMachine), stepN n m = .ok m' →
      m.call_ids ≤ m'.call_ids := by
  intro n
  induction n with
  | zero => intro m m' h; rw [stepN] at h; cases h; exact le_refl _
  | succ n ih =>
    intro m m' h
    rw [stepN] at h
    match hstep : step m with
    | .error e => rw [hstep] at h; cases h
    | .ok (m1, b) =>
      rw [hstep] at h
      exact le_trans (step_callIds_mono m m1 b hstep) (ih m1 m' h)

/-- Executing a macro call: the arity check passes, a frame whose alias map
sends every declared local `loc` to `loc ++ "__m" ++ <counter>` is pushed,
and the activation counter is consumed (incremented). -/
theorem step_call_charac (m : SMachine) (name : String)
    (hac : aboutToCall m name = true) :
    ∃ m' : SMachine, step m = .ok (m', true) ∧
      m'.call_ids = m.call_ids + 1 ∧
      ∃ md f rest, dget? m.macros name = some md ∧
        m'.stack = f :: rest ∧
        ∀ loc ∈ md.locals, dget? f.map loc = some (localRealName loc m.call_ids) := by
  match hs : m.stack with
  | [] => rw [aboutToCall, hs] at hac; cases hac
  | frame :: rest =>
    rw [aboutToCall, hs] at hac
    simp only [Bool.and_eq_true, decide_eq_true_eq, beq_iff_eq, Bool.not_eq_true',
      beq_eq_false_iff_ne, ne_eq] at hac
    match hmd : dget? m.macros name with
    | none => rw [hmd] at hac; simp at hac
    | some md =>
      rw [hmd] at hac
      obtain ⟨⟨⟨⟨hpc, hop⟩, hni⟩, hnd⟩, hnj⟩ := hac.1
      have hlen : (frame.code.getD frame.pc default).args.length = md.params.length := by
        have := hac.2
        simpa using this
      set instr := frame.code.getD frame.pc default with hinstr
      set sfx := "__m" ++ Nat.repr m.call_ids with hsfx
      set nm := md.locals.foldl (fun d loc => dset d loc (loc ++ sfx))
        ((md.params.zip instr.args).foldl (fun d pa => dset d pa.1 (aget frame.map pa.2)) [])
        with hnm
      set fb := resolveLabels md.code sfx with hfb
      have hstep : step m = .ok (saveSnapshot { m with
          call_ids := m.call_ids + 1
          stack := makeFrame fb.1 fb.2 nm :: { frame with pc := frame.pc + 1 } :: rest
          step_count := m.step_count + 1 }, true) := by
        rw [step, hs]
        simp only
        rw [if_neg (by omega)]
        rw [if_neg (by rw [hop]; exact hni), if_neg (by rw [hop]; exact hnd),
          if_neg (by rw [hop]; exact hnj)]
        rw [hop, hmd]
        simp only
        rw [if_neg (by rw [hlen]; simp)]
        rfl
      refine ⟨_, hstep, ?_, ?_⟩
      · simp [saveSnapshot]
      · refine ⟨md, makeFrame fb.1 fb.2 nm,
          { frame with pc := frame.pc + 1 } :: rest, rfl, ?_, ?_⟩
        · simp only [saveSnapshot]
        · intro loc hloc
          simp only [makeFrame, hnm]
          rw [foldl_dset_locals]
          rw [if_pos hloc]
          rfl

/-! ### Claim theorems -/

/-- C1: Namespace isolation.  In any execution, take two distinct
activations of the same macro: the machine `m1` reached after `n` steps is
positioned on a call to `name`, and so is the machine `m2` reached `k ≥ 1`
steps later (this covers sibling, nested and recursive activations alike).
Then (i) any activation positioned on such a call pushes a frame whose
alias map sends every declared local `loc` of the macro to the real name
`loc ++ "__m" ++ <counter>`, and (ii) the real names the two activations
assign to the same local are distinct, so neither activation can read or
write the other's locals. -/
theorem namespace_isolation (m m1 m2 : SMachine) (n k : Nat) (name : String)
    (h1 : stepN n m = .ok m1) (h2 : stepN k m1 = .ok m2) (hk : 0 < k)
    (hc1 : aboutToCall m1 name = true) (hc2 : aboutToCall m2 name = true) :
    (∀ mc : SMachine, ∀ nm : String, aboutToCall mc nm = true →
      ∃ mc' : SMachine, step mc = .ok (mc', true) ∧ ∃ md f rest,
        dget? mc.macros nm = some md ∧ mc'.stack = f :: rest ∧
        ∀ loc ∈ md.locals, dget? f.map loc = some (localRealName loc mc.call_ids)) ∧
    (∀ loc : String, localRealName loc m1.call_ids ≠ localRealName loc m2.call_ids) := by
  constructor
  · intro mc nm hac
    obtain ⟨mc', hstep, _, hrest⟩ := step_call_charac mc nm hac
    exact ⟨mc', hstep, hrest⟩
  · intro loc heq
    have hlt : m1.call_ids < m2.call_ids := by
      obtain ⟨m1', hstep, hids, _⟩ := step_call_charac m1 name hc1
      match k, hk with
      | k' + 1, _ =>
        rw [stepN, hstep] at h2
        have := stepN_callIds_mono k' m1' m2 h2
        omega
    exact absurd (localRealName_inj loc _ _ heq) (by omega)

/-- Witness for C1: the machine `mIso` calls macro `g` twice; after three
steps it is positioned on the second call, and the two activations assign
distinct real names to the local `z`. -/
theorem namespace_isolation_witness :
    (∀ mc : SMachine, ∀ nm : String, aboutToCall mc nm = true →
      ∃ mc' : SMachine, step mc = .ok (mc', true) ∧ ∃ md f rest,
        dget? mc.macros nm = some md ∧ mc'.stack = f :: rest ∧
        ∀ loc ∈ md.locals, dget? f.map loc = some (localRealName loc mc.call_ids)) ∧
    (∀ loc : String, localRealName loc mIso.call_ids ≠ localRealName loc mIso2.call_ids) :=
  namespace_isolation mIso mIso mIso2 0 3 "g" rfl (by rfl) (by decide) (by rfl) (by rfl)

/-- C2: Error atomicity.  Whenever `step` fails (with any of its error
kinds, among them ArityMismatch, UnknownInstruction and LabelNotFound),
the variable store, the whole call stack with every frame's program
counter, and the step counter are exactly as they were before the failing
instruction began executing. -/
theorem step_error_atomicity (m m' : SMachine) (e : SErr)
    (h : step m = .error (e, m')) :
    m'.vars = m.vars ∧ m'.stack = m.stack ∧ m'.step_count = m.step_count := by
  have heq := step_error_eq m m' e h
  rw [heq]
  exact ⟨rfl, rfl, rfl⟩

/-- Witness for C2: an arity-mismatched macro call errors and leaves the
machine state untouched. -/
theorem step_error_atomicity_witness :
    mBadArity.vars = mBadArity.vars ∧ mBadArity.stack = mBadArity.stack ∧
      mBadArity.step_count = mBadArity.step_count :=
  step_error_atomicity mBadArity mBadArity (.arityMismatch "f" 1 0) rfl

/-- C6: Jnz semantics.  With the current instruction `jnz a0 a1 ...`:
when the resolved variable's value is 0 (also when it was never set, since
lookup defaults to 0), the active frame's program counter advances by one
and the variable store and the other frames are untouched (only the usual
per-step bookkeeping, step counter and history, happens); when the value is
non-zero, control transfers through the Label Jump Resolver applied to the
label name resolved through the active frame's alias map, failing with
LabelNotFound (and no state change) when no frame resolves it. -/
theorem jnz_semantics (m : SMachine) (frame : Frame) (rest : List Frame)
    (a0 a1 : String) (args : List String)
    (hs : m.stack = frame :: rest) (hpc : frame.pc < frame.code.length)
    (hinstr : frame.code.getD frame.pc default = ⟨"jnz", a0 :: a1 :: args⟩) :
    (vget m.vars (aget frame.map a0) = 0 →
      step m = .ok (saveSnapshot { m with
        stack := { frame with pc := frame.pc + 1 } :: rest
        step_count := m.step_count + 1 }, true)) ∧
    (vget m.vars (aget frame.map a0) ≠ 0 →
      step m = (match jump (aget frame.map a1) (frame :: rest) with
        | some st => .ok (saveSnapshot { m with
            stack := st
            step_count := m.step_count + 1 }, true)
        | none => .error (.labelNotFound (aget frame.map a1), m))) := by
  constructor
  · intro hv
    rw [step, hs]
    simp only
    rw [if_neg (by omega), hinstr]
    simp only
    rw [if_neg (by decide), if_neg (by decide), if_pos trivial]
    rw [if_neg (by simp [hv])]
    rfl
  · intro hv
    rw [step, hs]
    simp only
    rw [if_neg (by omega), hinstr]
    simp only
    rw [if_neg (by decide), if_neg (by decide), if_pos trivial]
    rw [if_pos hv]
    match hj : jump (aget frame.map a1) (frame :: rest) with
    | some st => rfl
    | none => rfl

/-- Witness for C6 at the concrete machine `mJnz` (variable `x` is 0). -/
theorem jnz_semantics_witness :
    (vget mJnz.vars (aget jnzFrame.map "x") = 0 →
      step mJnz = .ok (saveSnapshot { mJnz with
        stack := { jnzFrame with pc := jnzFrame.pc + 1 } :: []
        step_count := mJnz.step_count + 1 }, true)) ∧
    (vget mJnz.vars (aget jnzFrame.map "x") ≠ 0 →
      step mJnz = (match jump (aget jnzFrame.map "A") (jnzFrame :: []) with
        | some st => .ok (saveSnapshot { mJnz with
            stack := st
            step_count := mJnz.step_count + 1 }, true)
        | none => .error (.labelNotFound (aget jnzFrame.map "A"), mJnz))) :=
  jnz_semantics mJnz jnzFrame [] "x" "A" [] rfl (by decide) rfl

/-- C10: A step that pops a completed frame (program counter past the end)
appends one snapshot to history — a snapshot carrying the unchanged step
counter — and leaves the step counter itself unchanged, so frame returns
are never charged against the run budget and history can hold consecutive
snapshots with equal step numbers. -/
theorem pop_step_no_count (m : SMachine) (frame : Frame) (rest : List Frame)
    (hs : m.stack = frame :: rest) (hpc : frame.code.length ≤ frame.pc) :
    ∃ m', step m = .ok (m', !rest.isEmpty) ∧
      m'.step_count = m.step_count ∧
      m'.history = m.history ++ [mkSnapshot { m with stack := rest }] ∧
      (mkSnapshot { m with stack := rest }).step = m.step_count := by
  rw [step, hs]
  simp only
  rw [if_pos (by omega)]
  exact ⟨_, rfl, rfl, rfl, rfl⟩

/-- Witness for C10 at the concrete machine `mPop`. -/
theorem pop_step_no_count_witness :
    ∃ m', step mPop = .ok (m', !popRest.isEmpty) ∧
      m'.step_count = mPop.step_count ∧
      m'.history = mPop.history ++ [mkSnapshot { mPop with stack := popRest }] ∧
      (mkSnapshot { mPop with stack := popRest }).step = mPop.step_count :=
  pop_step_no_count mPop popFrame popRest rfl (by decide)

/-! ### Non-negativity of the variable store -/

theorem dget?_mem {α : Type} (d : Dict α) (k : String) (v : α)
    (h : dget? d k = some v) : ∃ p ∈ d, p.2 = v := by
  induction d with
  | nil => rw [dget?] at h; cases h
  | cons p t ih =>
    rw [dget?] at h
    by_cases hp : p.1 = k
    · rw [if_pos hp] at h
      cases h
      exact ⟨p, List.mem_cons_self p t, rfl⟩
    · rw [if_neg hp] at h
      obtain ⟨q, hq, hv⟩ := ih h
      exact ⟨q, List.mem_cons_of_mem p hq, hv⟩

theorem vget_nonneg (d : Dict Int) (hd : VarsNonneg d) (v : String) :
    0 ≤ vget d v := by
  rw [vget]
  match hg : dget? d v with
  | none => simp
  | some x =>
    obtain ⟨p, hp, hv⟩ := dget?_mem d v x hg
    simpa [hv] using hd p hp

theorem VarsNonneg_dset (d : Dict Int) (k : String) (x : Int)
    (hd : VarsNonneg d) (hx : 0 ≤ x) : VarsNonneg (dset d k x) := by
  induction d with
  | nil =>
    intro p hp
    rw [dset] at hp
    simp at hp
    subst hp
    exact hx
  | cons p t ih =>
    intro q hq
    rw [dset] at hq
    by_cases hp : p.1 = k
    · rw [if_pos hp] at hq
      rcases List.mem_cons.mp hq with h | h
      · rw [h]; exact hx
      · exact hd q (List.mem_cons_of_mem p h)
    · rw [if_neg hp] at hq
      rcases List.mem_cons.mp hq with h | h
      · rw [h]; exact hd p (List.mem_cons_self p t)
      · exact ih (fun r hr => hd r (List.mem_cons_of_mem p hr)) q h

/-- The only mutations `step` makes to the variable store: none, an
increment, or a floored decrement. -/
theorem step_vars_shape (m m' : SMachine) (b : Bool)
    (h : step m = .ok (m', b)) :
    m'.vars = m.vars ∨
    (∃ v, m'.vars = dset m.vars v (vget m.vars v + 1)) ∨
    (∃ v, m'.vars = dset m.vars v (max 0 (vget m.vars v - 1))) := by
  match hs : m.stack with
  | [] => rw [step, hs] at h; cases h; left; rfl
  | frame :: rest =>
    rw [step, hs] at h
    simp only at h
    by_cases hpc : frame.pc ≥ frame.code.length
    · rw [if_pos hpc] at h; cases h; left; simp [saveSnapshot]
    · rw [if_neg hpc] at h
      set instr := frame.code.getD frame.pc default with hinstr
      by_cases h1 : instr.op = "inc"
      · rw [if_pos h1] at h
        match ha : instr.args with
        | a0 :: _ =>
          rw [ha] at h
          cases h
          right; left
          exact ⟨aget frame.map a0, by simp [saveSnapshot]⟩
        | [] => rw [ha] at h; cases h
      · rw [if_neg h1] at h
        by_cases h2 : instr.op = "dec"
        · rw [if_pos h2] at h
          match ha : instr.args with
          | a0 :: _ =>
            rw [ha] at h
            cases h
            right; right
            exact ⟨aget frame.map a0, by simp [saveSnapshot]⟩
          | [] => rw [ha] at h; cases h
        · rw [if_neg h2] at h
          by_cases h3 : instr.op = "jnz"
          · rw [if_pos h3] at h
            match ha : instr.args with
            | a0 :: a1 :: _ =>
              rw [ha] at h
              simp only at h
              by_cases hv : vget m.vars (aget frame.map a0) ≠ 0
              · rw [if_pos hv] at h
                match hj : jump (aget frame.map a1) (frame :: rest) with
                | some st => rw [hj] at h; cases h; left; simp [saveSnapshot]
                | none => rw [hj] at h; cases h
              · rw [if_neg hv] at h; cases h; left; simp [saveSnapshot]
            | [] => rw [ha] at h; cases h
            | [a0] => rw [ha] at h; cases h
          · rw [if_neg h3] at h
            match hm : dget? m.macros instr.op with
            | some md =>
              rw [hm] at h
              simp only at h
              by_cases hlen : instr.args.length ≠ md.params.length
              · rw [if_pos hlen] at h; cases h
              · rw [if_neg hlen] at h; cases h; left; simp [saveSnapshot]
            | none => rw [hm] at h; cases h

/-- What a successful `reset` builds. -/
theorem reset_ok_shape (m m' : SMachine) (h : reset m = .ok m') :
    m.inputs.find? (fun p => decide (p.2 < 0)) = none ∧
    m'.vars = (if dmem m.inputs "y" then m.inputs else m.inputs ++ [("y", 0)]) ∧
    m'.stack = [makeFrame (resolveLabels m.program_src "").1 (resolveLabels m.program_src "").2 []] ∧
    m'.step_count = 0 ∧ m'.history.length = 1 := by
  rw [reset] at h
  match hf : m.inputs.find? (fun p => decide (p.2 < 0)) with
  | some p => rw [hf] at h; cases h
  | none =>
    rw [hf] at h
    cases h
    exact ⟨hf, by simp [saveSnapshot], by simp [saveSnapshot], by simp [saveSnapshot],
      by simp [saveSnapshot]⟩

/-- C7: Non-negativity invariant.  (i) After a successful `reset` every
stored value is non-negative; (ii) `step` preserves the invariant (so it
holds after every step); (iii) decrementing a variable whose value is 0
stores 0 back, without error; (iv) a negative input makes `reset` fail with
InvalidInput carrying the machine unchanged (the non-integer half of the
source's check is carried by the `Int` value type of the embedding). -/
theorem nonnegativity_invariant (m : SMachine) :
    (∀ m', reset m = .ok m' → VarsNonneg m'.vars) ∧
    (∀ m' b, VarsNonneg m.vars → step m = .ok (m', b) → VarsNonneg m'.vars) ∧
    (∀ frame rest a0 args, m.stack = frame :: rest →
      frame.pc < frame.code.length →
      frame.code.getD frame.pc default = ⟨"dec", a0 :: args⟩ →
      vget m.vars (aget frame.map a0) = 0 →
      step m = .ok (saveSnapshot { m with
        vars := dset m.vars (aget frame.map a0) 0
        stack := { frame with pc := frame.pc + 1 } :: rest
        step_count := m.step_count + 1 }, true)) ∧
    (∀ p ∈ m.inputs, p.2 < 0 →
      ∃ q ∈ m.inputs, q.2 < 0 ∧ reset m = .error (.invalidInput q.1, m)) := by
  refine ⟨?_, ?_, ?_, ?_⟩
  · intro m' h
    obtain ⟨hf, hv, -⟩ := reset_ok_shape m m' h
    have hin : VarsNonneg m.inputs := by
      intro p hp
      have := List.find?_eq_none.mp hf p hp
      simpa using this
    rw [hv]
    by_cases hy : dmem m.inputs "y"
    · rw [if_pos hy]; exact hin
    · rw [if_neg hy]
      intro p hp
      rcases List.mem_append.mp hp with h | h
      · exact hin p h
      · simp at h
        subst h
        simp
  · intro m' b hd h
    rcases step_vars_shape m m' b h with hsame | ⟨v, hv⟩ | ⟨v, hv⟩
    · rw [hsame]; exact hd
    · rw [hv]
      refine VarsNonneg_dset _ _ _ hd ?_
      have := vget_nonneg m.vars hd v
      omega
    · rw [hv]
      exact VarsNonneg_dset _ _ _ hd (le_max_left 0 _)
  · intro frame rest a0 args hs hpc hinstr hv
    rw [step, hs]
    simp only
    rw [if_neg (by omega), hinstr]
    simp only
    rw [if_neg (by decide), if_pos trivial, hv]
    rfl
  · intro p hp hneg
    match hf : m.inputs.find? (fun q => decide (q.2 < 0)) with
    | none =>
      have := List.find?_eq_none.mp hf p hp
      simp at this
      omega
    | some q =>
      have hq1 := List.mem_of_find?_eq_some hf
      have hq2 := List.find?_some hf
      simp at hq2
      refine ⟨q, hq1, hq2, ?_⟩
      rw [reset, hf]

/-! ### History and rewind -/

/-- Every successful step appends exactly one snapshot to history. -/
theorem step_history_shape (m m' : SMachine) (b : Bool)
    (h : step m = .ok (m', b)) :
    m'.history = m.history ∨ ∃ s, m'.history = m.history ++ [s] := by
  match hs : m.stack with
  | [] => rw [step, hs] at h; cases h; left; rfl
  | frame :: rest =>
    rw [step, hs] at h
    simp only at h
    by_cases hpc : frame.pc ≥ frame.code.length
    · rw [if_pos hpc] at h; cases h; right; exact ⟨_, rfl⟩
    · rw [if_neg hpc] at h
      set instr := frame.code.getD frame.pc default with hinstr
      by_cases h1 : instr.op = "inc"
      · rw [if_pos h1] at h
        match ha : instr.args with
        | _ :: _ => rw [ha] at h; cases h; right; exact ⟨_, rfl⟩
        | [] => rw [ha] at h; cases h
      · rw [if_neg h1] at h
        by_cases h2 : instr.op = "dec"
        · rw [if_pos h2] at h
          match ha : instr.args with
          | _ :: _ => rw [ha] at h; cases h; right; exact ⟨_, rfl⟩
          | [] => rw [ha] at h; cases h
        · rw [if_neg h2] at h
          by_cases h3 : instr.op = "jnz"
          · rw [if_pos h3] at h
            match ha : instr.args with
            | a0 :: a1 :: _ =>
              rw [ha] at h
              simp only at h
              by_cases hv : vget m.vars (aget frame.map a0) ≠ 0
              · rw [if_pos hv] at h
                match hj : jump (aget frame.map a1) (frame :: rest) with
                | some st =>
                  rw [hj] at h; cases h; right; exact ⟨_, rfl⟩
                | none => rw [hj] at h; cases h
              · rw [if_neg hv] at h; cases h; right; exact ⟨_, rfl⟩
            | [] => rw [ha] at h; cases h
            | [a0] => rw [ha] at h; cases h
          · rw [if_neg h3] at h
            match hm : dget? m.macros instr.op with
            | some md =>
              rw [hm] at h
              simp only at h
              by_cases hlen : instr.args.length ≠ md.params.length
              · rw [if_pos hlen] at h; cases h
              · rw [if_neg hlen] at h; cases h; right; exact ⟨_, rfl⟩
            | none => rw [hm] at h; cases h

/-- How `rewind` resolves an index: Python list indexing. -/
theorem rewind_cases (m : SMachine) (idx : Int) :
    (¬(0 ≤ (if idx < 0 then idx + (m.history.length : Int) else idx) ∧
        (if idx < 0 then idx + (m.history.length : Int) else idx) <
          (m.history.length : Int)) →
      rewind m idx = .error (.rewindIndexOutOfRange idx, m)) ∧
    ((0 ≤ (if idx < 0 then idx + (m.history.length : Int) else idx) ∧
        (if idx < 0 then idx + (m.history.length : Int) else idx) <
          (m.history.length : Int)) →
      rewind m idx = .ok { m with
        vars := (m.history.getD
          (if idx < 0 then idx + (m.history.length : Int) else idx).toNat default).vars
        stack := (m.history.getD
          (if idx < 0 then idx + (m.history.length : Int) else idx).toNat default).stack
        step_count := (m.history.getD
          (if idx < 0 then idx + (m.history.length : Int) else idx).toNat default).step }) := by
  rw [rewind]
  simp only
  constructor
  · intro h
    rw [if_neg h]
  · intro h
    rw [if_pos h]

/-- C5: Snapshot independence and rewind correctness.  Snapshots are plain
values here because the source deep-copies them; observably, (i) a step only
appends to history, leaving every stored snapshot intact, (ii) a rewind
leaves the entire history (and the registered macros and loaded program)
intact, and (iii) rewinding to a valid index `i` makes the live variable
store, call stack and step counter exactly the ones snapshot `i` recorded. -/
theorem snapshot_rewind_correctness (m : SMachine) :
    (∀ m' b, step m = .ok (m', b) →
      ∀ i, i < m.history.length → m'.history.getD i default = m.history.getD i default) ∧
    (∀ (i : Int) m', rewind m i = .ok m' →
      m'.history = m.history ∧ m'.macros = m.macros ∧
      m'.program_src = m.program_src ∧ m'.program_flat = m.program_flat) ∧
    (∀ i : Nat, i < m.history.length →
      rewind m i = .ok { m with
        vars := (m.history.getD i default).vars
        stack := (m.history.getD i default).stack
        step_count := (m.history.getD i default).step }) := by
  refine ⟨?_, ?_, ?_⟩
  · intro m' b h i hi
    rcases step_history_shape m m' b h with hsame | ⟨s, hs⟩
    · rw [hsame]
    · rw [hs, List.getD, List.getD, List.get?_append hi]
  · intro i m' h
    by_cases hc : (0 ≤ (if i < 0 then i + (m.history.length : Int) else i) ∧
        (if i < 0 then i + (m.history.length : Int) else i) < (m.history.length : Int))
    · rw [(rewind_cases m i).2 hc] at h
      cases h
      exact ⟨rfl, rfl, rfl, rfl⟩
    · rw [(rewind_cases m i).1 hc] at h
      cases h
  · intro i hi
    have hni : ¬((i : Int) < 0) := by omega
    have hok := (rewind_cases m (i : Int)).2
    rw [if_neg hni] at hok
    have := hok ⟨by omega, by omega⟩
    simpa using this

/-- C9 (amended): `rewind` uses Python list indexing: an index is valid
when, after adding the history length to a negative index, it lands in
`[0, history length)`; so `rewind` fails exactly when `idx < -len` or
`idx ≥ len`, and on success it replaces the live variable store, call
stack and step counter with the addressed snapshot's. -/
theorem rewind_range_characterization (m : SMachine) (idx : Int) :
    (rewind m idx = .error (.rewindIndexOutOfRange idx, m) ↔
      (idx < -(m.history.length : Int) ∨ (m.history.length : Int) ≤ idx)) ∧
    (∀ m', rewind m idx = .ok m' →
      m' = { m with
        vars := (m.history.getD
          (if idx < 0 then idx + m.history.length else idx).toNat default).vars
        stack := (m.history.getD
          (if idx < 0 then idx + m.history.length else idx).toNat default).stack
        step_count := (m.history.getD
          (if idx < 0 then idx + m.history.length else idx).toNat default).step }) := by
  by_cases hc : 0 ≤ (if idx < 0 then idx + (m.history.length : Int) else idx) ∧
      (if idx < 0 then idx + (m.history.length : Int) else idx) < (m.history.length : Int)
  · rw [(rewind_cases m idx).2 hc]
    constructor
    · constructor
      · intro h; cases h
      · intro h
        exfalso
        by_cases hneg : idx < 0
        · rw [if_pos hneg] at hc; omega
        · rw [if_neg hneg] at hc; omega
    · intro m' h
      cases h
      rfl
  · rw [(rewind_cases m idx).1 hc]
    constructor
    · constructor
      · intro h
        by_cases hneg : idx < 0
        · rw [if_pos hneg] at hc
          omega
        · rw [if_neg hneg] at hc
          omega
      · intro h; rfl
    · intro m' h
      cases h

/-- C9 counterexample: on a machine whose history has exactly one entry
(index 0 is the only "valid history position" in the claim's sense),
`rewind (-1)` nonetheless succeeds — Python's negative indexing counts from
the end — so "fails if and only if the index is not in 0..len-1" is false
as stated. -/
theorem rewind_negative_index_cex :
    (∃ m', rewind mReset (-1) = .ok m') ∧
      mReset.history.length = 1 ∧
      ¬(0 ≤ (-1 : Int) ∧ (-1 : Int) < (mReset.history.length : Int)) :=
  ⟨⟨(rewind mReset (-1)).toOption.getD default, by rfl⟩, by rfl, by decide⟩

/-! ### Macro registration -/

/-- C8 (amended): `add_macro` fails exactly when the name is empty, or
when overwriting is disallowed and the name is already registered (the
DuplicateMacro case); it does not validate distinctness of `params` or
`locals`, their disjointness, or non-emptiness of the body (the source's
`isinstance` shape checks are carried by the argument types). -/
theorem addMacro_characterization (m : SMachine) (name : String)
    (params : List String) (code : List Instr) (locals : List String) (ow : Bool) :
    (addMacro m name params code locals ow = .error (.invalidMacroName, m) ↔
      name = "") ∧
    (addMacro m name params code locals ow = .error (.duplicateMacro name, m) ↔
      (name ≠ "" ∧ ow = false ∧ dmem m.macros name = true)) ∧
    ((name ≠ "" ∧ (ow = true ∨ dmem m.macros name = false)) →
      addMacro m name params code locals ow =
        .ok { m with macros := dset m.macros name ⟨params, code, locals⟩ }) := by
  rw [addMacro]
  by_cases h1 : name = ""
  · rw [if_pos h1]
    refine ⟨by simp [h1], ?_, ?_⟩
    · constructor
      · intro h; cases h
      · intro h; exact absurd h1 h.1
    · intro h; exact absurd h1 h.1
  · rw [if_neg h1]
    by_cases h2 : ¬ow ∧ dmem m.macros name
    · rw [if_pos h2]
      refine ⟨by simp [h1], ?_, ?_⟩
      · constructor
        · intro h
          exact ⟨h1, by simpa using h2.1, h2.2⟩
        · intro h; rfl
      · intro h
        exfalso
        rcases h.2 with ho | hd
        · rw [ho] at h2; exact h2.1 rfl
        · rw [hd] at h2; cases h2.2
    · rw [if_neg h2]
      refine ⟨by simp [h1], ?_, ?_⟩
      · constructor
        · intro h; cases h
        · intro h
          exact absurd ⟨by simp [h.2.1], h.2.2⟩ h2
      · intro h; rfl

/-- C8 counterexample: registration succeeds with duplicate parameter
names, a local overlapping a parameter, and an empty body, all at once —
none of those validations exist in the source. -/
theorem addMacro_no_structural_validation_cex :
    addMacro mEmptyProg "f" ["a", "a"] [] ["a"] true =
      .ok { mEmptyProg with macros := [("f", ⟨["a", "a"], [], ["a"]⟩)] } := by rfl

/-! ### Label jump resolution -/

/-- The special-cased top frame of `_jump` behaves exactly like the first
iteration of the outward loop. -/
theorem jump_eq_jumpOuter (target : String) (stack : List Frame) :
    jump target stack = jumpOuter target stack := by
  match stack with
  | [] => rfl
  | top :: rest =>
    rw [jump, jumpOuter]

/-- First-match semantics of the outward search, frame index counted from
the top of the stack. -/
theorem jumpOuter_charac (target : String) :
    ∀ l : List Frame,
      (∀ st, jumpOuter target l = some st →
        ∃ k idx, k < l.length ∧
          findLabelInFrame target (l.getD k default) = some idx ∧
          (∀ j, j < k → findLabelInFrame target (l.getD j default) = none) ∧
          st = { l.getD k default with pc := idx } :: l.drop (k + 1)) ∧
      (jumpOuter target l = none →
        ∀ j, j < l.length → findLabelInFrame target (l.getD j default) = none) := by
  intro l
  induction l with
  | nil =>
    constructor
    · intro st h; rw [jumpOuter] at h; cases h
    · intro h j hj; simp at hj
  | cons f t ih =>
    constructor
    · intro st h
      rw [jumpOuter] at h
      match hf : findLabelInFrame target f with
      | some idx =>
        rw [hf] at h
        cases h
        exact ⟨0, idx, by simp, by simpa using hf, by intro j hj; omega, by simp⟩
      | none =>
        rw [hf] at h
        obtain ⟨k, idx, hk, hfind, hprev, hst⟩ := ih.1 st h
        refine ⟨k + 1, idx, by simp; omega, by simpa using hfind, ?_, by simpa using hst⟩
        intro j hj
        match j with
        | 0 => simpa using hf
        | j' + 1 => simpa using hprev j' (by omega)
    · intro h j hj
      rw [jumpOuter] at h
      match hf : findLabelInFrame target f with
      | some idx => rw [hf] at h; cases h
      | none =>
        rw [hf] at h
        match j with
        | 0 => simpa using hf
        | j' + 1 =>
          have := ih.2 h j' (by simp at hj; omega)
          simpa using this

/-- C4: Label jump resolution.  (i) Within one frame the resolver tries an
exact match of the target in the label map, then the first stored key that
begins with `target ++ "__"`; (ii) a successful jump lands on the first
frame, counted outward from the active frame (index 0), that resolves the
target: every frame strictly nearer the top resolves to nothing, the
frames strictly above the match are discarded, and the matched frame's
program counter becomes the matched index; (iii) when the search returns
nothing (the LabelNotFound case), no frame in the stack resolves the
target. -/
theorem label_jump_resolution (target : String) (stack : List Frame) :
    (∀ f, findLabelInFrame target f =
      (match dget? f.labels target with
       | some idx => some idx
       | none =>
         (f.labels.find? (fun p => pyStartsWith p.1 (target ++ "__"))).map
           (fun p => p.2))) ∧
    (∀ st, jump target stack = some st →
      ∃ k idx, k < stack.length ∧
        findLabelInFrame target (stack.getD k default) = some idx ∧
        (∀ j, j < k → findLabelInFrame target (stack.getD j default) = none) ∧
        st = { stack.getD k default with pc := idx } :: stack.drop (k + 1)) ∧
    (jump target stack = none →
      ∀ j, j < stack.length → findLabelInFrame target (stack.getD j default) = none) := by
  refine ⟨fun f => rfl, ?_, ?_⟩
  · intro st h
    rw [jump_eq_jumpOuter] at h
    exact (jumpOuter_charac target stack).1 st h
  · intro h
    rw [jump_eq_jumpOuter] at h
    exact (jumpOuter_charac target stack).2 h

/-! ### The run loop and the step budget -/

/-- `step` never raises the budget error itself. -/
theorem step_error_kind (m m' : SMachine) (e : SErr)
    (h : step m = .error (e, m')) : e ≠ .stepLimitExceeded := by
  match hs : m.stack with
  | [] => rw [step, hs] at h; cases h
  | frame :: rest =>
    rw [step, hs] at h
    simp only at h
    by_cases hpc : frame.pc ≥ frame.code.length
    · rw [if_pos hpc] at h; cases h
    · rw [if_neg hpc] at h
      set instr := frame.code.getD frame.pc default with hinstr
      by_cases h1 : instr.op = "inc"
      · rw [if_pos h1] at h
        match ha : instr.args with
        | _ :: _ => rw [ha] at h; cases h
        | [] => rw [ha] at h; cases h; simp
      · rw [if_neg h1] at h
        by_cases h2 : instr.op = "dec"
        · rw [if_pos h2] at h
          match ha : instr.args with
          | _ :: _ => rw [ha] at h; cases h
          | [] => rw [ha] at h; cases h; simp
        · rw [if_neg h2] at h
          by_cases h3 : instr.op = "jnz"
          · rw [if_pos h3] at h
            match ha : instr.args with
            | a0 :: a1 :: _ =>
              rw [ha] at h
              simp only at h
              by_cases hv : vget m.vars (aget frame.map a0) ≠ 0
              · rw [if_pos hv] at h
                match hj : jump (aget frame.map a1) (frame :: rest) with
                | some st => rw [hj] at h; cases h
                | none => rw [hj] at h; cases h; simp
              · rw [if_neg hv] at h; cases h
            | [] => rw [ha] at h; cases h; simp
            | [a0] => rw [ha] at h; cases h; simp
          · rw [if_neg h3] at h
            match hm : dget? m.macros instr.op with
            | some md =>
              rw [hm] at h
              simp only at h
              by_cases hlen : instr.args.length ≠ md.params.length
              · rw [if_pos hlen] at h; cases h; simp
              · rw [if_neg hlen] at h; cases h
            | none => rw [hm] at h; cases h; simp

/-- `reset` only ever raises InvalidInput. -/
theorem reset_error_kind (m m' : SMachine) (e : SErr)
    (h : reset m = .error (e, m')) : e ≠ .stepLimitExceeded := by
  rw [reset] at h
  match hf : m.inputs.find? (fun p => decide (p.2 < 0)) with
  | some p => rw [hf] at h; cases h; simp
  | none => rw [hf] at h; cases h

/-- `run`'s entry leaves the stack non-empty (a fresh machine is reset,
and `reset` installs the root frame). -/
theorem runEntry_ok_stack (m m0 : SMachine) (h : runEntry m = .ok m0) :
    m0.stack ≠ [] := by
  rw [runEntry] at h
  by_cases he : m.stack.isEmpty
  · rw [if_pos he] at h
    obtain ⟨-, -, hstack, -, -⟩ := reset_ok_shape m m0 h
    rw [hstack]
    simp
  · rw [if_neg he] at h
    cases h
    simpa using he

/-- Errors surfacing from `run`'s entry are never the budget error. -/
theorem runEntry_error_kind (m m' : SMachine) (e : SErr)
    (h : runEntry m = .error (e, m')) : e ≠ .stepLimitExceeded := by
  rw [runEntry] at h
  by_cases he : m.stack.isEmpty
  · rw [if_pos he] at h
    exact reset_error_kind m m' e h
  · rw [if_neg he] at h
    cases h

/-- Errors surfacing from the run loop all come from `step`. -/
theorem runLoop_error_kind (maxSteps : Nat) (m me : SMachine) (e : SErr)
    (h : runLoop maxSteps m = .error (e, me)) : e ≠ .stepLimitExceeded := by
  refine runLoop.induct maxSteps
    (fun x => ∀ (me' : SMachine) (e' : SErr),
      runLoop maxSteps x = .error (e', me') → e' ≠ .stepLimitExceeded)
    ?_ ?_ ?_ m me e h
  · intro x hc ep hstep me' e' h'
    rw [runLoop.eq_def, dif_pos hc] at h'
    split at h'
    · rename_i heq
      rw [hstep] at heq
      cases heq
      cases h'
      exact step_error_kind _ _ _ hstep
    · rename_i heq
      rw [hstep] at heq
      cases heq
  · intro x hc m' b hstep ih me' e' h'
    rw [runLoop.eq_def, dif_pos hc] at h'
    split at h'
    · rename_i heq
      rw [hstep] at heq
      cases heq
    · rename_i heq
      rw [hstep] at heq
      cases heq
      exact ih me' e' h'
  · intro x hc me' e' h'
    rw [runLoop.eq_def, dif_neg hc] at h'
    cases h'

/-- At loop exit the loop condition has failed: the machine has halted or
the budget is spent. -/
theorem runLoop_ok_exit (maxSteps : Nat) (m m1 : SMachine)
    (h : runLoop maxSteps m = .ok m1) :
    m1.stack = [] ∨ maxSteps ≤ m1.step_count := by
  refine runLoop.induct maxSteps
    (fun x => ∀ m1' : SMachine, runLoop maxSteps x = .ok m1' →
      m1'.stack = [] ∨ maxSteps ≤ m1'.step_count)
    ?_ ?_ ?_ m m1 h
  · intro x hc ep hstep m1' h'
    rw [runLoop.eq_def, dif_pos hc] at h'
    split at h'
    · cases h'
    · rename_i heq
      rw [hstep] at heq
      cases heq
  · intro x hc m' b hstep ih m1' h'
    rw [runLoop.eq_def, dif_pos hc] at h'
    split at h'
    · rename_i heq
      rw [hstep] at heq
      cases heq
    · rename_i heq
      rw [hstep] at heq
      cases heq
      exact ih m1' h'
  · intro x hc m1' h'
    rw [runLoop.eq_def, dif_neg hc] at h'
    cases h'
    rcases Decidable.not_and_iff_or_not.mp hc with h1 | h2
    · left; simpa using h1
    · right; omega
/-- If the loop exits because the machine halted, the budget was not yet
spent when the final frame was popped (a pop does not advance the step
counter), so a halting exit never trips the budget check. -/
theorem runLoop_halt_lt (maxSteps : Nat) (m m1 : SMachine)
    (h : runLoop maxSteps m = .ok m1) (hm1 : m1.stack = []) :
    m.stack = [] ∨ m1.step_count < maxSteps := by
  refine runLoop.induct maxSteps
    (fun x => ∀ m1' : SMachine, runLoop maxSteps x = .ok m1' → m1'.stack = [] →
      x.stack = [] ∨ m1'.step_count < maxSteps)
    ?_ ?_ ?_ m m1 h hm1
  · intro x hc ep hstep m1' h'
    rw [runLoop.eq_def, dif_pos hc] at h'
    split at h'
    · cases h'
    · rename_i heq
      rw [hstep] at heq
      cases heq
  · intro x hc m' b hstep ih m1' h' hm1'
    rw [runLoop.eq_def, dif_pos hc] at h'
    split at h'
    · rename_i heq
      rw [hstep] at heq
      cases heq
    · rename_i heq
      rw [hstep] at heq
      cases heq
      rcases ih m1' h' hm1' with hempty | hlt
      · right
        have hrl : runLoop maxSteps m' = .ok m' := by
          rw [runLoop.eq_def, dif_neg (by simp [hempty])]
        rw [hrl] at h'
        cases h'
        rcases step_progress x m' b hc.1 hstep with ⟨hcount, -⟩ | ⟨-, hne⟩
        · have := hc.2
          omega
        · exact absurd hm1' hne
      · right; exact hlt
  · intro x hc m1' h' hm1'
    rw [runLoop.eq_def, dif_neg hc] at h'
    cases h'
    by_cases hx : x.stack = []
    · left; exact hx
    · right
      exfalso
      exact hx hm1'

/-- The loop never drives the step counter past the budget. -/
theorem runLoop_step_le (maxSteps : Nat) (m m1 : SMachine)
    (hle : m.step_count ≤ maxSteps) (h : runLoop maxSteps m = .ok m1) :
    m1.step_count ≤ maxSteps := by
  refine runLoop.induct maxSteps
    (fun x => x.step_count ≤ maxSteps → ∀ m1' : SMachine,
      runLoop maxSteps x = .ok m1' → m1'.step_count ≤ maxSteps)
    ?_ ?_ ?_ m hle m1 h
  · intro x hc ep hstep hxle m1' h'
    rw [runLoop.eq_def, dif_pos hc] at h'
    split at h'
    · cases h'
    · rename_i heq
      rw [hstep] at heq
      cases heq
  · intro x hc m' b hstep ih hxle m1' h'
    rw [runLoop.eq_def, dif_pos hc] at h'
    split at h'
    · rename_i heq
      rw [hstep] at heq
      cases heq
    · rename_i heq
      rw [hstep] at heq
      cases heq
      refine ih ?_ m1' h'
      rcases step_progress x m' b hc.1 hstep with ⟨hcount, -⟩ | ⟨hcount, -⟩ <;> omega
  · intro x hc hxle m1' h'
    rw [runLoop.eq_def, dif_neg hc] at h'
    cases h'
    exact hxle

/-- C3: Step budget.  `run` raises StepLimitExceeded exactly when the loop
exits with the machine still RUNNING (call stack non-empty) and the budget
spent; a run that halts inside the budget never raises it (a halting exit
leaves the step counter strictly below the budget), and since the loop can
never push the step counter past the budget, when the error is raised on a
fresh machine (step counter starting at 0 ≤ budget) it is raised with the
step counter exactly equal to the budget — not earlier, not later. -/
theorem run_steplimit_characterization (m : SMachine) (maxSteps : Nat) :
    ((∃ me, run m maxSteps = .error (.stepLimitExceeded, me)) ↔
      (∃ m0 m1, runEntry m = .ok m0 ∧ runLoop maxSteps m0 = .ok m1 ∧
        m1.stack ≠ [] ∧ maxSteps ≤ m1.step_count)) ∧
    (∀ m0 m1, runEntry m = .ok m0 → runLoop maxSteps m0 = .ok m1 →
      m0.step_count ≤ maxSteps → m1.step_count ≤ maxSteps) := by
  constructor
  · constructor
    · rintro ⟨me, h⟩
      rw [run] at h
      match hent : runEntry m with
      | .error ep =>
        rw [hent] at h
        simp only at h
        cases h
        exact absurd rfl (runEntry_error_kind m me _ hent)
      | .ok m0 =>
        rw [hent] at h
        simp only at h
        match hloop : runLoop maxSteps m0 with
        | .error ep =>
          rw [hloop] at h
          simp only at h
          cases h
          exact absurd rfl (runLoop_error_kind maxSteps m0 me _ hloop)
        | .ok m1 =>
          rw [hloop] at h
          simp only at h
          by_cases hge : m1.step_count ≥ maxSteps
          · rw [if_pos hge] at h
            cases h
            refine ⟨m0, me, rfl, hloop, ?_, hge⟩
            intro hempty
            rcases runLoop_halt_lt maxSteps m0 me hloop hempty with h0 | hlt
            · exact runEntry_ok_stack m m0 hent h0
            · omega
          · rw [if_neg hge] at h
            cases h
    · rintro ⟨m0, m1, hent, hloop, hne, hge⟩
      refine ⟨m1, ?_⟩
      rw [run, hent]
      simp only
      rw [hloop]
      simp only
      rw [if_pos (by omega)]
  · intro m0 m1 hent hloop hle
    exact runLoop_step_le maxSteps m0 m1 hle hloop

end SLang
